import Mathlib

/-!
Shallow embedding of the markdown-translator core (src/components/Preview.tsx
and its collaborators) and proofs about it.

Strings are modelled by Lean `String` (a wrapper around `List Char`); the
JavaScript operations used by the code (split on a separator, trim, regex
tests against the fixed patterns of `REGEX`) are implemented by structural
recursion over the character list so that every definition is executable.
JavaScript string indices are UTF-16 code-unit indices; every string the
verified code paths manipulate here is ASCII, where code units and characters
coincide.
-/

namespace MT

/-- Characters matched by the JavaScript regex class back-slash-s
(whitespace): the ASCII whitespace characters plus the Unicode space
characters JavaScript includes.  The inputs exercised here are ASCII. -/
def isJsWs (c : Char) : Bool :=
  c == ' ' || c == '\t' || c == '\n' || c == '\r' || c == '\x0b' || c == '\x0c' ||
  c == '\u00A0' || c == '\u2028' || c == '\u2029' || c == '\uFEFF'

/-- JavaScript `String.prototype.trim` on the character list. -/
def trimChars (cs : List Char) : List Char :=
  ((cs.dropWhile isJsWs).reverse.dropWhile isJsWs).reverse

/-- JavaScript `line.trim()`. -/
def jsTrim (s : String) : String :=
  String.mk (trimChars s.data)

/-- Split a character list at every newline character, as JavaScript
`text.split('\n')` does (an empty string yields one empty line). -/
def splitNl : List Char → List (List Char)
  | [] => [[]]
  | c :: rest =>
    if c = '\n' then [] :: splitNl rest
    else
      match splitNl rest with
      | [] => [[c]]
      | l :: ls => (c :: l) :: ls

/-- JavaScript `text.split('\n')`. -/
def jsSplit (s : String) : List String :=
  (splitNl s.data).map String.mk

/-- `lines.join('\n')`: interpose a newline between consecutive elements. -/
def joinNL : List String → String
  | [] => ""
  | [s] => s
  | s :: rest => s ++ "\n" ++ joinNL rest

/-- Interpose a newline between consecutive character lists (the character
level counterpart of `joinNL`). -/
def joinLines : List (List Char) → List Char
  | [] => []
  | [l] => l
  | l :: ls => l ++ '\n' :: joinLines ls

/-- The test of `REGEX.codeFenceStart` (`^` then three backticks then an
optional word): it succeeds exactly when the line starts with three
backticks. -/
def isFenceStart (l : String) : Bool :=
  "```".data.isPrefixOf l.data

/-- Capture group 1 of `REGEX.codeFenceStart`: the maximal word-character
run after the three backticks (`\w` is `[A-Za-z0-9_]`). -/
def fenceLang (l : String) : String :=
  String.mk ((l.data.drop 3).takeWhile (fun c => c.isAlphanum || c == '_'))

/-- `REGEX.header` (`^(#{1,6})` then whitespace then the rest): returns the
hash-mark run and the content after the whitespace run, or `none`.  Only the
maximal hash-mark run of the line can match, because the character following
it is never another hash mark, while every shorter run is followed by one,
which is not whitespace. -/
def headerMatch (l : String) : Option (String × String) :=
  let hs := l.data.takeWhile (fun c => c == '#')
  if 1 ≤ hs.length ∧ hs.length ≤ 6 then
    let rest := l.data.drop hs.length
    let ws := rest.takeWhile isJsWs
    if ws.length = 0 then none
    else some (String.mk hs, String.mk (rest.drop ws.length))
  else none

/-- The block kinds of the `MarkdownBlock` interface in Preview.tsx. -/
inductive BlockType
  | text | code | header | quote | list | hr | empty
deriving DecidableEq

/-- The `MarkdownBlock` interface of Preview.tsx (`pfx` embeds the optional
field that stores the heading marker). -/
structure MarkdownBlock where
  type : BlockType
  content : String
  pfx : Option String := none
  lang : Option String := none
  raw : String
deriving DecidableEq

/-- `flushTextBuffer` of `parseMarkdownIntoBlocks`: a non-empty accumulated
text buffer becomes one Text block whose content and raw are the buffered
lines joined by newline. -/
def flushText (tbuf : List String) : List MarkdownBlock :=
  if tbuf = [] then []
  else [{ type := BlockType.text, content := joinNL tbuf, raw := joinNL tbuf }]

/-- The line loop of `parseMarkdownIntoBlocks` (Preview.tsx lines 74-118),
with the loop state (text buffer, in-fence flag, fence language, code buffer)
passed explicitly.  At end of input only the text buffer is flushed: a code
buffer of an unterminated fence is discarded, exactly as in the source. -/
def parseAux : List String → List String → Bool → String → List String → List MarkdownBlock
  | [], tbuf, _, _, _ => flushText tbuf
  | line :: rest, tbuf, inCode, lang, cbuf =>
    if !inCode && isFenceStart line then
      flushText tbuf ++ parseAux rest [] true (fenceLang line) []
    else if inCode then
      if line = "```" then
        { type := BlockType.code, content := joinNL cbuf, lang := some lang,
          raw := "```" ++ lang ++ "\n" ++ joinNL cbuf ++ "\n```" }
          :: parseAux rest tbuf false lang []
      else
        parseAux rest tbuf true lang (cbuf ++ [line])
    else
      match headerMatch line with
      | some hc =>
        flushText tbuf ++
          ({ type := BlockType.header, content := hc.2, pfx := some (hc.1 ++ " "),
             raw := line } :: parseAux rest [] false lang cbuf)
      | none =>
        if jsTrim line = "" then
          flushText tbuf ++
            ({ type := BlockType.empty, content := "", raw := "" }
              :: parseAux rest [] false lang cbuf)
        else
          parseAux rest (tbuf ++ [line]) false lang cbuf

/-- `parseMarkdownIntoBlocks` (Preview.tsx lines 58-120). -/
def parseMarkdownIntoBlocks (text : String) : List MarkdownBlock :=
  parseAux (jsSplit text) [] false "" []

theorem splitNl_ne_nil (cs : List Char) : splitNl cs ≠ [] := by
  induction cs with
  | nil => simp [splitNl]
  | cons c rest ih =>
    by_cases h : c = '\n'
    · simp [splitNl, h]
    · simp only [splitNl, if_neg h]
      rcases hs : splitNl rest with _ | ⟨l, ls⟩ <;> simp

theorem joinLines_splitNl (cs : List Char) : joinLines (splitNl cs) = cs := by
  induction cs with
  | nil => rfl
  | cons c rest ih =>
    by_cases h : c = '\n'
    · subst h
      simp only [splitNl, if_pos rfl]
      rcases hs : splitNl rest with _ | ⟨l, ls⟩
      · exact absurd hs (splitNl_ne_nil rest)
      · rw [hs] at ih
        cases ls <;> simpa [joinLines] using ih
    · simp only [splitNl, if_neg h]
      rcases hs : splitNl rest with _ | ⟨l, ls⟩
      · exact absurd hs (splitNl_ne_nil rest)
      · rw [hs] at ih
        cases ls with
        | nil => simpa [joinLines] using congrArg (c :: ·) ih
        | cons l2 ls2 =>
          show (c :: l) ++ '\n' :: joinLines (l2 :: ls2) = c :: rest
          rw [List.cons_append, ← ih]
          simp [joinLines]

theorem joinNL_map_mk : ∀ ls : List (List Char), (joinNL (ls.map String.mk)).data = joinLines ls
  | [] => rfl
  | [_] => rfl
  | l :: l2 :: ls => by
    show (String.mk l ++ "\n" ++ joinNL ((l2 :: ls).map String.mk)).data
        = l ++ '\n' :: joinLines (l2 :: ls)
    rw [String.data_append, String.data_append, joinNL_map_mk (l2 :: ls)]
    simp

theorem joinNL_jsSplit (s : String) : joinNL (jsSplit s) = s := by
  apply String.ext
  show (joinNL ((splitNl s.data).map String.mk)).data = s.data
  rw [joinNL_map_mk, joinLines_splitNl]

theorem joinNL_cons (s : String) (rest : List String) (h : rest ≠ []) :
    joinNL (s :: rest) = s ++ "\n" ++ joinNL rest := by
  cases rest with
  | nil => exact absurd rfl h
  | cons r rs => rfl

theorem joinNL_append : ∀ (xs ys : List String), xs ≠ [] → ys ≠ [] →
    joinNL (xs ++ ys) = joinNL xs ++ "\n" ++ joinNL ys
  | [], _, hx, _ => absurd rfl hx
  | [x], ys, _, hy => by
    rw [List.singleton_append, joinNL_cons x ys hy]
    rfl
  | x :: x2 :: xs, ys, _, hy => by
    rw [List.cons_append, joinNL_cons x ((x2 :: xs) ++ ys) (by simp),
        joinNL_append (x2 :: xs) ys (by simp) hy, joinNL_cons x (x2 :: xs) (by simp)]
    simp [String.append_assoc]

theorem parseAux_ne_nil : ∀ (lines tbuf : List String) (lang : String) (cbuf : List String),
    (∀ l ∈ lines, isFenceStart l = false) → (lines ≠ [] ∨ tbuf ≠ []) →
    parseAux lines tbuf false lang cbuf ≠ []
  | [], tbuf, lang, cbuf, _, h => by
    rcases h with h | h
    · exact absurd rfl h
    · simp [parseAux, flushText, h]
  | line :: rest, tbuf, lang, cbuf, hf, _ => by
    have hline : isFenceStart line = false := hf line (by simp)
    simp only [parseAux, hline, Bool.not_false, Bool.true_and, if_neg Bool.false_ne_true,
      if_neg (by simp : ¬False)]
    rcases hm : headerMatch line with _ | hc
    · simp only [hm]
      by_cases he : jsTrim line = ""
      · simp [he]
      · simp only [if_neg he]
        exact parseAux_ne_nil rest (tbuf ++ [line]) lang cbuf
          (fun l hl => hf l (by simp [hl])) (Or.inr (by simp))
    · simp [hm]

/-- If two lists join to the same string and are simultaneously empty, the
joins with a common head line agree. -/
theorem joinNL_congr_cons (line : String) (Q rest : List String)
    (hQ : joinNL Q = joinNL rest) (hiff : Q = [] ↔ rest = []) :
    joinNL (line :: Q) = joinNL (line :: rest) := by
  cases Q with
  | nil => rw [hiff.mp rfl]
  | cons q qs =>
    have hr : rest ≠ [] := fun h => List.cons_ne_nil q qs (hiff.mpr h)
    rw [joinNL_cons line (q :: qs) (by simp), joinNL_cons line rest hr, hQ]

theorem joinNL_flush_glue (tbuf : List String) (line : String) (Q rest : List String)
    (hQ : joinNL Q = joinNL rest) (hiff : Q = [] ↔ rest = []) :
    joinNL (((flushText tbuf).map (fun b => b.raw)) ++ line :: Q)
      = joinNL (tbuf ++ line :: rest) := by
  by_cases ht : tbuf = []
  · subst ht
    simpa [flushText] using joinNL_congr_cons line Q rest hQ hiff
  · simp only [flushText, if_neg ht, List.map_cons, List.map_nil, List.singleton_append]
    rw [joinNL_cons _ (line :: Q) (by simp), joinNL_congr_cons line Q rest hQ hiff,
      joinNL_append tbuf (line :: rest) ht (by simp)]

theorem parse_lossless_aux : ∀ (lines tbuf : List String) (lang : String) (cbuf : List String),
    (∀ l ∈ lines, isFenceStart l = false ∧ (jsTrim l = "" → l = "")) →
    joinNL ((parseAux lines tbuf false lang cbuf).map (fun b => b.raw))
      = joinNL (tbuf ++ lines)
  | [], tbuf, lang, cbuf, _ => by
    by_cases ht : tbuf = []
    · simp [parseAux, flushText, ht]
    · simp only [parseAux, flushText, if_neg ht, List.map_cons, List.map_nil, List.append_nil]
      rfl
  | line :: rest, tbuf, lang, cbuf, h => by
    have hline := h line (by simp)
    have hrest : ∀ l ∈ rest, isFenceStart l = false ∧ (jsTrim l = "" → l = "") :=
      fun l hl => h l (by simp [hl])
    have hrestf : ∀ l ∈ rest, isFenceStart l = false := fun l hl => (hrest l hl).1
    simp only [parseAux, hline.1, Bool.not_false, Bool.true_and,
      if_neg Bool.false_ne_true, if_neg (by simp : ¬False)]
    have hiff : parseAux rest [] false lang cbuf = [] ↔ rest = [] := by
      constructor
      · intro hP
        by_contra hr
        exact parseAux_ne_nil rest [] lang cbuf hrestf (Or.inl hr) hP
      · intro hr; subst hr; simp [parseAux, flushText]
    have hmapiff : (parseAux rest [] false lang cbuf).map (fun b => b.raw) = [] ↔ rest = [] := by
      rw [List.map_eq_nil_iff]; exact hiff
    have IH := parse_lossless_aux rest [] lang cbuf hrest
    rw [List.nil_append] at IH
    rcases hm : headerMatch line with _ | hc
    · simp only [hm]
      by_cases he : jsTrim line = ""
      · have hline0 : line = "" := hline.2 he
        simp only [if_pos he, List.map_append, List.map_cons]
        have := joinNL_flush_glue tbuf ""
          ((parseAux rest [] false lang cbuf).map (fun b => b.raw)) rest IH hmapiff
        rw [hline0]
        exact this
      · simp only [if_neg he]
        have := parse_lossless_aux rest (tbuf ++ [line]) lang cbuf hrest
        rw [this, List.append_assoc, List.singleton_append]
    · simp only [List.map_append, List.map_cons]
      exact joinNL_flush_glue tbuf line
        ((parseAux rest [] false lang cbuf).map (fun b => b.raw)) rest IH hmapiff

/-- C3 counterexample: segmentation is not lossless.  The one-line document
consisting of a single space is a whitespace-only line; `parseMarkdownIntoBlocks`
emits for it an `empty` block whose `raw` is the empty string, so joining the
`raw` fields by newline yields `""`, not the original document `" "`. -/
theorem C3_lossless_counterexample :
    joinNL ((parseMarkdownIntoBlocks " ").map (fun b => b.raw)) ≠ " " := by decide

/-- C3 amended: for every document in which no line begins a code fence
(no line starts with three backticks) and every whitespace-only line is
actually empty, joining the blocks' `raw` fields with a newline separator
reconstructs the document exactly. -/
theorem C3_lossless_amended (text : String)
    (h : ∀ l ∈ jsSplit text, isFenceStart l = false ∧ (jsTrim l = "" → l = "")) :
    joinNL ((parseMarkdownIntoBlocks text).map (fun b => b.raw)) = text := by
  have := parse_lossless_aux (jsSplit text) [] "" [] h
  rw [List.nil_append, joinNL_jsSplit] at this
  exact this

/-- Witness for C3 amended at a concrete three-line document. -/
theorem C3_lossless_amended_witness :
    joinNL ((parseMarkdownIntoBlocks "# Hi\n\nSome text here.").map (fun b => b.raw))
      = "# Hi\n\nSome text here." :=
  C3_lossless_amended "# Hi\n\nSome text here." (by decide)

theorem parseAux_inCode_noClose : ∀ (lines tbuf : List String) (lang : String)
    (cbuf : List String), (∀ l ∈ lines, l ≠ "```") →
    parseAux lines tbuf true lang cbuf = flushText tbuf
  | [], _, _, _, _ => rfl
  | line :: rest, tbuf, lang, cbuf, h => by
    have hline : line ≠ "```" := h line (by simp)
    simp only [parseAux, Bool.not_true, Bool.false_and, if_neg Bool.false_ne_true,
      if_pos rfl, if_neg hline, if_neg (by simp : ¬False)]
    exact parseAux_inCode_noClose rest tbuf lang (cbuf ++ [line])
      (fun l hl => h l (by simp [hl]))

/-- C4 counterexample: a document that ends inside an unclosed code fence
produces NO blocks at all — the fence-open line and the accumulated fence
body are dropped, not emitted as a Code block. -/
theorem C4_unterminated_counterexample :
    parseMarkdownIntoBlocks "```js\nconst x = 1;" = [] := by decide

theorem parseAux_fenceOpen_noClose (first : String) (rest : List String)
    (hf : isFenceStart first = true) (hc : ∀ l ∈ rest, l ≠ "```")
    (tbuf : List String) (lang : String) (cbuf : List String) :
    parseAux (first :: rest) tbuf false lang cbuf = flushText tbuf := by
  simp only [parseAux, hf, Bool.not_false, Bool.true_and, if_pos rfl]
  rw [parseAux_inCode_noClose rest [] (fenceLang first) [] hc]
  simp [flushText]

theorem parseAux_truncate : ∀ (before : List String) (first : String) (rest : List String),
    (∀ l ∈ before, isFenceStart l = false) →
    isFenceStart first = true → (∀ l ∈ rest, l ≠ "```") →
    ∀ (tbuf : List String) (lang : String) (cbuf : List String),
    parseAux (before ++ first :: rest) tbuf false lang cbuf
      = parseAux before tbuf false lang cbuf
  | [], first, rest, _, hf, hc, tbuf, lang, cbuf => by
    rw [List.nil_append, parseAux_fenceOpen_noClose first rest hf hc tbuf lang cbuf]
    rfl
  | line :: before', first, rest, hb, hf, hc, tbuf, lang, cbuf => by
    have hline : isFenceStart line = false := hb line (by simp)
    have hb' : ∀ l ∈ before', isFenceStart l = false := fun l hl => hb l (by simp [hl])
    rw [List.cons_append]
    simp only [parseAux, hline, Bool.not_false, Bool.true_and,
      if_neg Bool.false_ne_true, if_neg (by simp : ¬False)]
    rcases hm : headerMatch line with _ | hcpair
    · simp only [hm]
      by_cases he : jsTrim line = ""
      · simp only [if_pos he]
        rw [parseAux_truncate before' first rest hb' hf hc [] lang cbuf]
      · simp only [if_neg he]
        rw [parseAux_truncate before' first rest hb' hf hc (tbuf ++ [line]) lang cbuf]
    · simp only [hm]
      rw [parseAux_truncate before' first rest hb' hf hc [] lang cbuf]

/-- C4 amended: an unclosed code fence at end of input is discarded, never
emitted.  In full generality over the parser state: (1) from any state not
inside a fence (any pending text buffer), a fence-open line followed only by
lines that never close the fence yields just the flushed text buffer — the
fence-open line and every subsequent line produce no block; (2) from any
state already inside a fence, the remaining lines and the accumulated fence
body are dropped entirely; (3) at top level, a document whose lines are
non-fence content followed by an unclosed fence parses exactly as its
truncation at the fence-open line. -/
theorem C4_unterminated_amended (before tbuf : List String) (lang : String)
    (cbuf : List String) (first : String) (rest : List String)
    (hf : isFenceStart first = true) (hc : ∀ l ∈ rest, l ≠ "```") :
    parseAux (first :: rest) tbuf false lang cbuf = flushText tbuf ∧
    parseAux rest tbuf true lang cbuf = flushText tbuf ∧
    ((∀ l ∈ before, isFenceStart l = false) →
      ∀ text, jsSplit text = before ++ first :: rest →
        parseMarkdownIntoBlocks text = parseAux before [] false "" []) := by
  refine ⟨parseAux_fenceOpen_noClose first rest hf hc tbuf lang cbuf,
    parseAux_inCode_noClose rest tbuf lang cbuf hc, ?_⟩
  intro hb text hsplit
  show parseAux (jsSplit text) [] false "" [] = parseAux before [] false "" []
  rw [hsplit]
  exact parseAux_truncate before first rest hb hf hc [] "" []

/-- Witness for C4 amended: an unclosed fence after a pending text line
yields only the flushed buffer, and the document `"intro"` + unclosed fence
parses exactly as the truncated document `["intro"]`. -/
theorem C4_unterminated_amended_witness :
    parseAux ["```js", "const x = 1;"] ["pending"] false "" [] = flushText ["pending"] ∧
    parseMarkdownIntoBlocks "intro\n```js\nconst x = 1;"
      = parseAux ["intro"] [] false "" [] := by
  have h := C4_unterminated_amended ["intro"] ["pending"] "" [] "```js" ["const x = 1;"]
    (by decide) (by decide)
  exact ⟨h.1, h.2.2 (by decide) "intro\n```js\nconst x = 1;" (by decide)⟩

/-- ToInt32 of an integer-valued JavaScript number: reduce modulo 2^32 into
the signed range. -/
def toInt32 (x : ℤ) : ℤ := (x + 2 ^ 31) % 2 ^ 32 - 2 ^ 31

/-- `str.replace(/\r\n/g, '\n')`. -/
def stripCr : List Char → List Char
  | [] => []
  | '\r' :: '\n' :: rest => '\n' :: stripCr rest
  | c :: rest => c :: stripCr rest

/-- `str.replace(/\s+/g, ' ')`: collapse each maximal whitespace run to one
space (`prevWs` remembers whether the previous character was in a run). -/
def collapseWsAux : List Char → Bool → List Char
  | [], _ => []
  | c :: rest, prevWs =>
    if isJsWs c then
      if prevWs then collapseWsAux rest true
      else ' ' :: collapseWsAux rest true
    else c :: collapseWsAux rest false

/-- The `cleanStr` of `djb2Hash` (Preview.tsx line 25): CRLF normalised,
whitespace runs collapsed to single spaces, then trimmed. -/
def cleanChars (s : String) : List Char :=
  trimChars (collapseWsAux (stripCr s.data) false)

/-- The hash loop of `djb2Hash` (Preview.tsx lines 26-28) with JavaScript
number semantics: `hash << 5` coerces the accumulator to a signed 32-bit
integer and wraps, while the surrounding additions are exact double-precision
arithmetic (the magnitudes stay far below 2^53).  `charCodeAt` is the UTF-16
code unit, equal to `Char.toNat` below 0x10000; all inputs here are ASCII. -/
def djb2Loop : List Char → ℤ → ℤ
  | [], h => h
  | c :: rest, h => djb2Loop rest (toInt32 (32 * toInt32 h) + h + (c.toNat : ℤ))

/-- `djb2Hash` (Preview.tsx lines 23-30) as the 32-bit unsigned value
(`hash >>> 0`).  The TypeScript function renders this value in lowercase hex
(`toString(16)`), an injective encoding, so string equality of rendered
hashes coincides with equality of these numbers; annotations therefore
carry the numeric value as their `contextHash` here. -/
def djb2Hash (s : String) : ℕ :=
  ((djb2Loop (cleanChars s) 5381) % 2 ^ 32).toNat

/-- The `Annotation` interface of types.ts (the optional global offsets are
unused by the verified paths and omitted). -/
structure Ann where
  id : String
  text : String
  note : String
  timestamp : ℕ
  contextHash : ℕ
  startOffset : ℕ
  endOffset : ℕ
deriving DecidableEq

/-- The sort key of `RecursiveHighlighter`'s comparator
`(a, b) => a.startOffset - b.startOffset`. -/
def annBefore (a b : Ann) : Prop := a.startOffset ≤ b.startOffset

instance : DecidableRel annBefore := fun a b => Nat.decLe a.startOffset b.startOffset

instance : IsTotal Ann annBefore := ⟨fun a b => Nat.le_total a.startOffset b.startOffset⟩

instance : IsTrans Ann annBefore := ⟨fun _ _ _ => Nat.le_trans⟩

/-- The `relevant` list of the string case of `RecursiveHighlighter`
(Preview.tsx lines 218-220): the annotations overlapping the current text
node's span `[s, e)`, sorted by `startOffset` (a stable sort, like
JavaScript's). -/
def relevantFor (s e : ℕ) (anns : List Ann) : List Ann :=
  List.insertionSort annBefore
    (anns.filter (fun a => decide (a.startOffset < e ∧ s < a.endOffset)))

/-- One rendered fragment of a text node: `hl` marks a highlighted span
(`annId` is the annotation that produced it); `lo`/`hi` are absolute
offsets into the block's plain text. -/
structure Frag where
  hl : Bool
  annId : String
  lo : ℕ
  hi : ℕ
deriving DecidableEq

/-- The fragment-building loop of `RecursiveHighlighter`'s string case
(Preview.tsx lines 224-250): walk the sorted relevant annotations with a
cursor, clip each annotation to `[cursor, e)`, skip empty clips, emit a
plain gap before each highlight and a trailing plain fragment at the end. -/
def hlWalk (e : ℕ) : List Ann → ℕ → List Frag
  | [], cursor => if cursor < e then [⟨false, "", cursor, e⟩] else []
  | a :: rest, cursor =>
    let hlStart := max a.startOffset cursor
    let hlEnd := min a.endOffset e
    if hlEnd ≤ hlStart then hlWalk e rest cursor
    else
      (if cursor < hlStart then [(⟨false, "", cursor, hlStart⟩ : Frag)] else []) ++
        ⟨true, a.id, hlStart, hlEnd⟩ :: hlWalk e rest hlEnd

/-- The highlight pipeline of `AnnotatedBlock` (Preview.tsx lines 300-321)
for a block whose rendered children flatten to the single plain-text string
`text`: keep the annotations whose `contextHash` equals the block's hash,
then run the string-node highlighter over the whole text with the shared
offset counter starting at 0. -/
def computeHighlights (text : String) (anns : List Ann) : List Frag :=
  hlWalk text.length
    (relevantFor 0 text.length (anns.filter (fun a => a.contextHash == djb2Hash text))) 0

/-- `text.slice(f.lo, f.hi)`: the characters of a fragment. -/
def fragText (text : String) (f : Frag) : String :=
  String.mk ((text.data.drop f.lo).take (f.hi - f.lo))

/-- The concatenation of the highlighted fragments' text for one block. -/
def highlightedText (text : String) (anns : List Ann) : String :=
  String.join (((computeHighlights text anns).filter (fun f => f.hl)).map (fragText text))

/-- The `(lo, hi)` ranges of the highlighted fragments emitted by the walk. -/
def walkRanges (e : ℕ) (anns : List Ann) (cursor : ℕ) : List (ℕ × ℕ) :=
  ((hlWalk e anns cursor).filter (fun f => f.hl)).map (fun f => (f.lo, f.hi))

/-- The highlighted ranges computed for one block. -/
def hlRanges (text : String) (anns : List Ann) : List (ℕ × ℕ) :=
  ((computeHighlights text anns).filter (fun f => f.hl)).map (fun f => (f.lo, f.hi))

theorem hlRanges_eq_walk (text : String) (anns : List Ann) :
    hlRanges text anns = walkRanges text.length
      (relevantFor 0 text.length (anns.filter (fun a => a.contextHash == djb2Hash text))) 0 :=
  rfl

theorem hlWalk_nil (e cursor : ℕ) :
    hlWalk e [] cursor = if cursor < e then [(⟨false, "", cursor, e⟩ : Frag)] else [] := rfl

theorem hlWalk_cons (e : ℕ) (a : Ann) (rest : List Ann) (cursor : ℕ) :
    hlWalk e (a :: rest) cursor =
      if min a.endOffset e ≤ max a.startOffset cursor then hlWalk e rest cursor
      else
        (if cursor < max a.startOffset cursor then
          [(⟨false, "", cursor, max a.startOffset cursor⟩ : Frag)] else []) ++
          ⟨true, a.id, max a.startOffset cursor, min a.endOffset e⟩
            :: hlWalk e rest (min a.endOffset e) := rfl

theorem walkRanges_nil (e cursor : ℕ) : walkRanges e [] cursor = [] := by
  rw [walkRanges, hlWalk_nil]
  split <;> simp

theorem walkRanges_cons (e : ℕ) (a : Ann) (rest : List Ann) (cursor : ℕ) :
    walkRanges e (a :: rest) cursor =
      if min a.endOffset e ≤ max a.startOffset cursor then walkRanges e rest cursor
      else (max a.startOffset cursor, min a.endOffset e)
        :: walkRanges e rest (min a.endOffset e) := by
  rw [walkRanges, hlWalk_cons]
  by_cases h : min a.endOffset e ≤ max a.startOffset cursor
  · rw [if_pos h, if_pos h, walkRanges]
  · rw [if_neg h, if_neg h]
    by_cases hg : cursor < max a.startOffset cursor <;>
      simp [hg, walkRanges, List.filter_append, List.filter_cons]

theorem walkRanges_bounds (e : ℕ) : ∀ (anns : List Ann) (cursor : ℕ) (r : ℕ × ℕ),
    r ∈ walkRanges e anns cursor → cursor ≤ r.1 ∧ r.1 < r.2 ∧ r.2 ≤ e
  | [], cursor, r => by simp [walkRanges_nil]
  | a :: rest, cursor, r => by
    rw [walkRanges_cons]
    by_cases h : min a.endOffset e ≤ max a.startOffset cursor
    · rw [if_pos h]
      exact walkRanges_bounds e rest cursor r
    · rw [if_neg h]
      intro hr
      rcases List.mem_cons.mp hr with h1 | h1
      · subst h1
        refine ⟨le_max_right _ _, ?_, min_le_right _ _⟩
        omega
      · have := walkRanges_bounds e rest (min a.endOffset e) r h1
        refine ⟨?_, this.2.1, this.2.2⟩
        have h2 := this.1
        omega

theorem walkRanges_pairwise (e : ℕ) : ∀ (anns : List Ann) (cursor : ℕ),
    (walkRanges e anns cursor).Pairwise (fun r s => r.2 ≤ s.1)
  | [], cursor => by simp [walkRanges_nil]
  | a :: rest, cursor => by
    rw [walkRanges_cons]
    by_cases h : min a.endOffset e ≤ max a.startOffset cursor
    · rw [if_pos h]
      exact walkRanges_pairwise e rest cursor
    · rw [if_neg h]
      refine List.Pairwise.cons ?_ (walkRanges_pairwise e rest _)
      intro s hs
      exact (walkRanges_bounds e rest _ s hs).1

/-- On a start-sorted annotation list, the walk's highlighted ranges cover
exactly the union of the declared ranges clipped to `[cursor, e)`. -/
theorem walkRanges_union (e : ℕ) : ∀ (anns : List Ann) (cursor : ℕ),
    anns.Sorted annBefore → ∀ k : ℕ,
    ((∃ r ∈ walkRanges e anns cursor, r.1 ≤ k ∧ k < r.2) ↔
      ((∃ a ∈ anns, a.startOffset ≤ k ∧ k < a.endOffset) ∧ cursor ≤ k ∧ k < e))
  | [], cursor, _, k => by simp [walkRanges_nil]
  | a :: rest, cursor, hs, k => by
    have hsort : ∀ b ∈ rest, a.startOffset ≤ b.startOffset :=
      fun b hb => (List.sorted_cons.mp hs).1 b hb
    have hrest : rest.Sorted annBefore := (List.sorted_cons.mp hs).2
    rw [walkRanges_cons]
    by_cases h : min a.endOffset e ≤ max a.startOffset cursor
    · rw [if_pos h]
      rw [walkRanges_union e rest cursor hrest k]
      constructor
      · rintro ⟨⟨b, hb, hbk1, hbk2⟩, hck, hke⟩
        exact ⟨⟨b, List.mem_cons_of_mem a hb, hbk1, hbk2⟩, hck, hke⟩
      · rintro ⟨⟨b, hb, hbk1, hbk2⟩, hck, hke⟩
        rcases List.mem_cons.mp hb with rfl | hb
        · exfalso
          omega
        · exact ⟨⟨b, hb, hbk1, hbk2⟩, hck, hke⟩
    · rw [if_neg h]
      have IH := walkRanges_union e rest (min a.endOffset e) hrest
      constructor
      · rintro ⟨r, hr, hrk⟩
        rcases List.mem_cons.mp hr with h1 | h1
        · subst h1
          obtain ⟨hrk1, hrk2⟩ := hrk
          simp only at hrk1 hrk2
          refine ⟨⟨a, List.mem_cons_self a rest, ?_, ?_⟩, ?_, ?_⟩ <;> omega
        · obtain ⟨⟨b, hb, hbk1, hbk2⟩, hck, hke⟩ := (IH k).mp ⟨r, h1, hrk⟩
          refine ⟨⟨b, List.mem_cons_of_mem a hb, hbk1, hbk2⟩, ?_, hke⟩
          omega
      · rintro ⟨⟨b, hb, hbk1, hbk2⟩, hck, hke⟩
        rcases List.mem_cons.mp hb with rfl | hb
        · refine ⟨(max b.startOffset cursor, min b.endOffset e),
            List.mem_cons_self _ _, ?_, ?_⟩ <;> simp only <;> omega
        · by_cases hk2 : min a.endOffset e ≤ k
          · obtain ⟨r, hr, hrk⟩ := (IH k).mpr ⟨⟨b, hb, hbk1, hbk2⟩, hk2, hke⟩
            exact ⟨r, List.mem_cons_of_mem _ hr, hrk⟩
          · have hab := hsort b hb
            refine ⟨(max a.startOffset cursor, min a.endOffset e),
              List.mem_cons_self _ _, ?_, ?_⟩ <;> simp only <;> omega

/-- C6: for a block plain text and two mutually overlapping annotations whose
`contextHash` matches the block, the computed highlight ranges are pairwise
disjoint and their union equals the union of the two declared ranges clipped
to the block's bounds. -/
theorem C6_highlights_disjoint_union (text : String) (a b : Ann)
    (ha : a.contextHash = djb2Hash text) (hb : b.contextHash = djb2Hash text)
    (hab : a.startOffset < b.endOffset) (hba : b.startOffset < a.endOffset) :
    (hlRanges text [a, b]).Pairwise (fun r s => r.2 ≤ s.1 ∨ s.2 ≤ r.1) ∧
    (∀ k : ℕ, (∃ r ∈ hlRanges text [a, b], r.1 ≤ k ∧ k < r.2) ↔
      (((a.startOffset ≤ k ∧ k < a.endOffset) ∨ (b.startOffset ≤ k ∧ k < b.endOffset))
        ∧ k < text.length)) := by
  have hfilter : [a, b].filter (fun x => x.contextHash == djb2Hash text) = [a, b] := by
    simp [List.filter, ha, hb]
  rw [hlRanges_eq_walk, hfilter]
  have hsorted : (relevantFor 0 text.length [a, b]).Sorted annBefore :=
    List.sorted_insertionSort annBefore _
  have hmem : ∀ x, x ∈ relevantFor 0 text.length [a, b] ↔
      x ∈ [a, b].filter (fun x => decide (x.startOffset < text.length ∧ 0 < x.endOffset)) :=
    fun x => (List.perm_insertionSort annBefore _).mem_iff
  constructor
  · exact (walkRanges_pairwise text.length _ 0).imp (fun h => Or.inl h)
  · intro k
    rw [walkRanges_union text.length _ 0 hsorted k]
    simp only [Nat.zero_le, true_and]
    constructor
    · rintro ⟨⟨x, hx, hxk⟩, hke⟩
      rw [hmem, List.mem_filter] at hx
      obtain ⟨hx2, _⟩ := hx
      rcases List.mem_cons.mp hx2 with rfl | hx2
      · exact ⟨Or.inl hxk, hke⟩
      · rcases List.mem_cons.mp hx2 with rfl | hx2
        · exact ⟨Or.inr hxk, hke⟩
        · simp at hx2
    · rintro ⟨hk | hk, hke⟩
      · refine ⟨⟨a, ?_, hk⟩, hke⟩
        rw [hmem, List.mem_filter]
        refine ⟨List.mem_cons_self _ _, decide_eq_true ?_⟩
        omega
      · refine ⟨⟨b, ?_, hk⟩, hke⟩
        rw [hmem, List.mem_filter]
        refine ⟨List.mem_cons_of_mem _ (List.mem_cons_self _ _), decide_eq_true ?_⟩
        omega

/-- Concrete annotation for the C6 witness on the block text `"abcdef"`. -/
def c6a : Ann :=
  { id := "a1", text := "bcd", note := "n1", timestamp := 0,
    contextHash := djb2Hash "abcdef", startOffset := 1, endOffset := 4 }

/-- Second concrete annotation for the C6 witness, overlapping `c6a`. -/
def c6b : Ann :=
  { id := "a2", text := "cde", note := "n2", timestamp := 0,
    contextHash := djb2Hash "abcdef", startOffset := 2, endOffset := 5 }

set_option maxRecDepth 4000 in
/-- Witness for C6 at a concrete block and two overlapping annotations. -/
theorem C6_highlights_disjoint_union_witness :
    (hlRanges "abcdef" [c6a, c6b]).Pairwise (fun r s => r.2 ≤ s.1 ∨ s.2 ≤ r.1) ∧
    (∀ k : ℕ, (∃ r ∈ hlRanges "abcdef" [c6a, c6b], r.1 ≤ k ∧ k < r.2) ↔
      (((c6a.startOffset ≤ k ∧ k < c6a.endOffset) ∨
        (c6b.startOffset ≤ k ∧ k < c6b.endOffset)) ∧ k < "abcdef".length)) :=
  C6_highlights_disjoint_union "abcdef" c6a c6b rfl rfl (by decide) (by decide)

/-- The annotation of the C7 scenario: `startOffset = 5`, `endOffset = 9` on
the block whose plain text is `"hello world"`. -/
def c7ann : Ann :=
  { id := "a7", text := " wor", note := "remark", timestamp := 0,
    contextHash := djb2Hash "hello world", startOffset := 5, endOffset := 9 }

set_option maxRecDepth 4000 in
/-- C7 counterexample: the highlighted substring for offsets 5..9 of
`"hello world"` is NOT `"o wo"` (that would be the slice 4..8). -/
theorem C7_highlight_counterexample :
    highlightedText "hello world" [c7ann] ≠ "o wo" := by decide

set_option maxRecDepth 4000 in
/-- C7 amended: the highlighted substring for `startOffset = 5`,
`endOffset = 9` on `"hello world"` is exactly `" wor"` (characters 5, 6, 7, 8:
space, w, o, r). -/
theorem C7_highlight_amended :
    highlightedText "hello world" [c7ann] = " wor" := by decide


/-- Bounded-fuel splitter on a separator character sequence, scanning left to
right and continuing after each non-overlapping occurrence, as JavaScript
`full.split(sep)` does for a non-empty separator.  The fuel only serves the
termination argument; it is always called with more fuel than characters. -/
def splitSepFuel (sep : List Char) : ℕ → List Char → List Char → List (List Char)
  | 0, rem, cur => [cur.reverse ++ rem]
  | _ + 1, [], cur => [cur.reverse]
  | fuel + 1, c :: rest, cur =>
    if sep.isPrefixOf (c :: rest) then
      cur.reverse :: splitSepFuel sep fuel (List.drop sep.length (c :: rest)) []
    else splitSepFuel sep fuel rest (c :: cur)

/-- JavaScript `s.split(sep)` for a non-empty separator string. -/
def jsSplitSep (sep s : String) : List String :=
  (splitSepFuel sep.data (s.data.length + 1) s.data []).map String.mk

/-- The delimiter `processBatch` splits the transformation response on
(Preview.tsx line 453). -/
def batchSepStr : String := "<<<BATCH_SEP>>>"

/-- `translatedTextFull.split('<<<BATCH_SEP>>>')` of `processBatch`. -/
def processBatchParts (full : String) : List String := jsSplitSep batchSepStr full

/-- The per-item translation of `processBatch` (Preview.tsx line 456):
`parts[idx] ? parts[idx].trim() : item.block.content` — a missing part, or an
empty-string part (falsy in JavaScript), falls back to the item's original
content. -/
def batchItemTranslation (parts : List String) (content : String) (idx : ℕ) : String :=
  match parts[idx]? with
  | some p => if p = "" then content else jsTrim p
  | none => content

/-- The final block written for one batch item (Preview.tsx line 457):
the stored marker followed by the translation. -/
def batchFinalBlock (parts : List String) (b : MarkdownBlock) (idx : ℕ) : String :=
  b.pfx.getD "" ++ batchItemTranslation parts b.content idx

/-- The `forEach` over a batch's items (Preview.tsx lines 455-462), carrying
the index. -/
def processBatchResultsAux (parts : List String) : List MarkdownBlock → ℕ → List String
  | [], _ => []
  | b :: rest, idx => batchFinalBlock parts b idx :: processBatchResultsAux parts rest (idx + 1)

/-- The final blocks a successful batch call writes, one per item. -/
def processBatchResults (parts : List String) (items : List MarkdownBlock) : List String :=
  processBatchResultsAux parts items 0

theorem processBatchResultsAux_length (parts : List String) :
    ∀ (items : List MarkdownBlock) (idx : ℕ),
    (processBatchResultsAux parts items idx).length = items.length
  | [], _ => rfl
  | _ :: rest, idx => by
    simp [processBatchResultsAux, processBatchResultsAux_length parts rest (idx + 1)]

/-- C5: if the transformation response for a batch splits into fewer
delimiter-separated parts than the batch has items, each missing trailing
item's translation is exactly its pre-translation original content, and the
batch still produces a result for every item (it does not fail). -/
theorem C5_batch_split_fallback (full : String) (items : List MarkdownBlock)
    (idx : ℕ) (b : MarkdownBlock)
    (hshort : (processBatchParts full).length < items.length)
    (hmiss : (processBatchParts full).length ≤ idx)
    (hidx : items[idx]? = some b) :
    batchItemTranslation (processBatchParts full) b.content idx = b.content ∧
    (processBatchResults (processBatchParts full) items).length = items.length := by
  constructor
  · have hnone : (processBatchParts full)[idx]? = none := List.getElem?_eq_none hmiss
    simp [batchItemTranslation, hnone]
  · exact processBatchResultsAux_length _ items 0

/-- The three text blocks of the C5 witness batch. -/
def c5blocks : List MarkdownBlock :=
  [{ type := BlockType.text, content := "aa", raw := "aa" },
   { type := BlockType.text, content := "bb", raw := "bb" },
   { type := BlockType.text, content := "cc", raw := "cc" }]

/-- Witness for C5: a 3-item batch whose response has only 2 parts leaves the
third item at its original content. -/
theorem C5_batch_split_fallback_witness :
    batchItemTranslation (processBatchParts "one\n\n<<<BATCH_SEP>>>\n\ntwo")
        ({ type := BlockType.text, content := "cc", raw := "cc" } : MarkdownBlock).content 2
      = ({ type := BlockType.text, content := "cc", raw := "cc" } : MarkdownBlock).content ∧
    (processBatchResults (processBatchParts "one\n\n<<<BATCH_SEP>>>\n\ntwo") c5blocks).length
      = c5blocks.length :=
  C5_batch_split_fallback "one\n\n<<<BATCH_SEP>>>\n\ntwo" c5blocks 2 _
    (by decide) (by decide) (by decide)

/-- `chunkCacheRef.current.has(raw)` over an association-list model of the
`Map<string, string>` cache. -/
def cacheHas (cache : List (String × String)) (k : String) : Bool :=
  cache.any (fun e => e.1 == k)

/-- One element of `blocksToTranslate`: a block paired with its index in the
segmented block list. -/
structure TransItem where
  block : MarkdownBlock
  index : ℕ
deriving DecidableEq

/-- `blocksToTranslate` (Preview.tsx lines 400-401): the non-empty blocks
whose raw text has no cache entry, each keeping its document index. -/
def blocksToTranslate (blocks : List MarkdownBlock) (cache : List (String × String)) :
    List TransItem :=
  (blocks.enum.map (fun p => ({ block := p.2, index := p.1 } : TransItem))).filter
    (fun it => decide (it.block.type ≠ BlockType.empty) && !cacheHas cache it.block.raw)

/-- The singleton test of the partitioning loop (Preview.tsx line 421):
a code block, or content longer than 1000 characters. -/
def isSingletonBlock (b : MarkdownBlock) : Bool :=
  decide (b.type = BlockType.code) || decide (1000 < b.content.length)

/-- The job kinds of the dispatch loop. -/
inductive JobKind
  | batch | single
deriving DecidableEq

/-- One dispatched job: a batch of items or a singleton; each job is sent as
exactly one transformation call. -/
structure Job where
  kind : JobKind
  items : List TransItem
deriving DecidableEq

/-- The batch-building loop of `runTranslation` (Preview.tsx lines 417-435):
a singleton block closes any open batch and becomes its own job; other blocks
accumulate until the batch size is reached; a trailing partial batch is
flushed at the end. -/
def buildBatchesAux (bs : ℕ) : List TransItem → List TransItem → List Job
  | [], cur => if cur = [] then [] else [{ kind := JobKind.batch, items := cur }]
  | it :: rest, cur =>
    if isSingletonBlock it.block then
      (if cur = [] then [] else [{ kind := JobKind.batch, items := cur }]) ++
        { kind := JobKind.single, items := [it] } :: buildBatchesAux bs rest []
    else
      if bs ≤ cur.length + 1 then
        { kind := JobKind.batch, items := cur ++ [it] } :: buildBatchesAux bs rest []
      else
        buildBatchesAux bs rest (cur ++ [it])

/-- The jobs of one translation pass. -/
def buildBatches (bs : ℕ) (items : List TransItem) : List Job :=
  buildBatchesAux bs items []

/-- How many transformation calls of a pass carry an item with the given raw
text (each job is one call). -/
def jobsMentioning (raw : String) (jobs : List Job) : ℕ :=
  (jobs.filter (fun j => j.items.any (fun it => it.block.raw == raw))).length

/-- C9 counterexample: a document containing the same code block twice (same
raw text), with an empty cache, dispatches TWO singleton jobs carrying that
raw text — the same text is sent in two transformation calls within one
pass, because the cache filter runs only once at pass start. -/
theorem C9_cache_counterexample :
    jobsMentioning "```a\nx\n```"
      (buildBatches 10 (blocksToTranslate
        (parseMarkdownIntoBlocks "```a\nx\n```\n\n```a\nx\n```") [])) = 2 := by decide

theorem buildBatchesAux_items_mem (bs : ℕ) :
    ∀ (pending cur : List TransItem) (j : Job) (it : TransItem),
    j ∈ buildBatchesAux bs pending cur → it ∈ j.items → it ∈ pending ∨ it ∈ cur
  | [], cur, j, it => by
    by_cases hc : cur = [] <;> intro hj hit
    · simp [buildBatchesAux, hc] at hj
    · simp only [buildBatchesAux, if_neg hc, List.mem_singleton] at hj
      subst hj
      exact Or.inr hit
  | it0 :: rest, cur, j, it => by
    intro hj hit
    simp only [buildBatchesAux] at hj
    by_cases hsing : isSingletonBlock it0.block
    · rw [if_pos hsing] at hj
      rcases List.mem_append.mp hj with hj | hj
      · by_cases hc : cur = []
        · simp [hc] at hj
        · simp only [if_neg hc, List.mem_singleton] at hj
          subst hj
          exact Or.inr hit
      · rcases List.mem_cons.mp hj with hj | hj
        · subst hj
          simp only [List.mem_singleton] at hit
          exact Or.inl (by simp [hit])
        · rcases buildBatchesAux_items_mem bs rest [] j it hj hit with h | h
          · exact Or.inl (List.mem_cons_of_mem _ h)
          · simp at h
    · rw [if_neg hsing] at hj
      by_cases hfull : bs ≤ cur.length + 1
      · rw [if_pos hfull] at hj
        rcases List.mem_cons.mp hj with hj | hj
        · subst hj
          rcases List.mem_append.mp hit with h | h
          · exact Or.inr h
          · simp only [List.mem_singleton] at h
            exact Or.inl (by simp [h])
        · rcases buildBatchesAux_items_mem bs rest [] j it hj hit with h | h
          · exact Or.inl (List.mem_cons_of_mem _ h)
          · simp at h
      · rw [if_neg hfull] at hj
        rcases buildBatchesAux_items_mem bs rest (cur ++ [it0]) j it hj hit with h | h
        · exact Or.inl (List.mem_cons_of_mem _ h)
        · rcases List.mem_append.mp h with h | h
          · exact Or.inr h
          · simp only [List.mem_singleton] at h
            exact Or.inl (by simp [h])

/-- C9 amended: a raw text that has a cache entry at pass start is never
dispatched — no job of the pass carries an item with that raw text (so
re-translating an already-translated document issues no calls); duplicates
of a non-cached raw text within one pass, however, are each dispatched, as
the counterexample shows. -/
theorem C9_cache_amended (blocks : List MarkdownBlock) (cache : List (String × String))
    (bs : ℕ) (raw : String) (h : cacheHas cache raw = true) :
    ∀ j ∈ buildBatches bs (blocksToTranslate blocks cache), ∀ it ∈ j.items,
      it.block.raw ≠ raw := by
  intro j hj it hit heq
  rcases buildBatchesAux_items_mem bs _ [] j it hj hit with hmem | hmem
  · have hp := (List.mem_filter.mp hmem).2
    rw [heq] at hp
    simp [h] at hp
  · simp at hmem

/-- Witness for C9 amended: with `"hello"` cached, the pass over a document
containing that block and a code block dispatches no job carrying the cached
raw text. -/
theorem C9_cache_amended_witness :
    ¬ ∃ j ∈ buildBatches 10 (blocksToTranslate
        (parseMarkdownIntoBlocks "hello\n\n```c\nz\n```") [("hello", "done")]),
      ∃ it ∈ j.items, it.block.raw = "hello" := by
  rintro ⟨j, hj, it, hit, heq⟩
  exact C9_cache_amended (parseMarkdownIntoBlocks "hello\n\n```c\nz\n```")
    [("hello", "done")] 10 "hello" (by decide) j hj it hit heq

/-- `totalBlocks` of `runTranslation` (Preview.tsx line 390): the number of
non-empty blocks. -/
def totalNonEmpty (blocks : List MarkdownBlock) : ℕ :=
  (blocks.filter (fun b => decide (b.type ≠ BlockType.empty))).length

/-- The values reported by `updateProgress` (Preview.tsx lines 439-444) for
`n` successive item completions starting from counter value `c`: each
completion increments the shared counter and reports `min (counter, total)`. -/
def reportSeq (total : ℕ) : ℕ → ℕ → List ℕ
  | _, 0 => []
  | c, n + 1 => min (c + 1) total :: reportSeq total (c + 1) n

/-- The number of `updateProgress` calls of a pass: a job whose transformation
call succeeds contributes one call per item (`forEach` for a batch, one for a
single); a job whose call throws contributes none — its `catch` only logs
(Preview.tsx lines 464-466 and 501-503). -/
def sumIncrements : List Job → List Bool → ℕ
  | [], _ => 0
  | _, [] => 0
  | j :: js, o :: os => (if o then j.items.length else 0) + sumIncrements js os

/-- The sequence of reported `current` values of one pass: the initial report
(`totalBlocks - blocksToTranslate.length`, Preview.tsx line 409) followed by
one report per successful item completion.  The shared counter makes this
sequence independent of how the concurrent jobs interleave. -/
def passReports (total stale : ℕ) (jobs : List Job) (outcomes : List Bool) : List ℕ :=
  (total - stale) :: reportSeq total (total - stale) (sumIncrements jobs outcomes)

/-- The reported `current` values of `runTranslation` on a document, given
the per-job success flags (in job order). -/
def runTranslationReports (text : String) (cache : List (String × String)) (bs : ℕ)
    (outcomes : List Bool) : List ℕ :=
  passReports (totalNonEmpty (parseMarkdownIntoBlocks text))
    (blocksToTranslate (parseMarkdownIntoBlocks text) cache).length
    (buildBatches bs (blocksToTranslate (parseMarkdownIntoBlocks text) cache)) outcomes

/-- C1 counterexample: on the one-block document `"hi"` with an empty cache,
a pass whose only job's transformation call fails reports only the initial
value 0: the final reported value is 0, not the total 1 — a failed job never
advances the progress counter. -/
theorem C1_progress_counterexample :
    (runTranslationReports "hi" [] 10 [false]).getLast? = some 0 ∧
    totalNonEmpty (parseMarkdownIntoBlocks "hi") = 1 ∧
    (runTranslationReports "hi" [] 10 [false]).getLast?
      ≠ some (totalNonEmpty (parseMarkdownIntoBlocks "hi")) := by decide

theorem reportSeq_saturated (total : ℕ) : ∀ (n c : ℕ), total ≤ c →
    reportSeq total c n = List.replicate n total
  | 0, _, _ => rfl
  | n + 1, c, h => by
    have hmin : min (c + 1) total = total := by omega
    simp [reportSeq, hmin, List.replicate_succ,
      reportSeq_saturated total n (c + 1) (by omega)]

theorem chain_cons_replicate : ∀ (n x : ℕ), List.Chain' (· ≤ ·) (x :: List.replicate n x)
  | 0, x => List.chain'_singleton x
  | n + 1, x => by
    rw [List.replicate_succ]
    exact List.Chain'.cons (le_refl x) (chain_cons_replicate n x)

theorem chain_reportSeq (total : ℕ) : ∀ (n c : ℕ), c ≤ total →
    List.Chain' (· ≤ ·) (c :: reportSeq total c n)
  | 0, c, _ => List.chain'_singleton c
  | n + 1, c, h => by
    rcases Nat.lt_or_ge c total with hlt | hge
    · have hmin : min (c + 1) total = c + 1 := by omega
      simp only [reportSeq, hmin]
      exact List.Chain'.cons (by omega) (chain_reportSeq total n (c + 1) (by omega))
    · have hc : total = c := by omega
      subst hc
      simp only [reportSeq]
      have hmin : min (total + 1) total = total := by omega
      rw [hmin, reportSeq_saturated total n (total + 1) (by omega), ← List.replicate_succ]
      exact chain_cons_replicate (n + 1) total

theorem getLast?_cons_replicate : ∀ (n x : ℕ), (x :: List.replicate n x).getLast? = some x
  | 0, _ => rfl
  | n + 1, x => by
    rw [List.replicate_succ, List.getLast?_cons_cons]
    exact getLast?_cons_replicate n x

theorem last_reportSeq (total : ℕ) : ∀ (n c : ℕ), c ≤ total →
    (c :: reportSeq total c n).getLast? = some (min (c + n) total)
  | 0, c, h => by
    show (c :: []).getLast? = some (min (c + 0) total)
    rw [List.getLast?_singleton]
    congr 1
    omega
  | n + 1, c, h => by
    rcases Nat.lt_or_ge c total with hlt | hge
    · have hmin : min (c + 1) total = c + 1 := by omega
      simp only [reportSeq, hmin, List.getLast?_cons_cons]
      rw [last_reportSeq total n (c + 1) (by omega)]
      congr 1
      omega
    · have hc : total = c := by omega
      subst hc
      simp only [reportSeq]
      have hmin : min (total + 1) total = total := by omega
      rw [hmin, reportSeq_saturated total n (total + 1) (by omega), List.getLast?_cons_cons,
        getLast?_cons_replicate n total]
      congr 1
      omega

theorem buildBatchesAux_sum (bs : ℕ) : ∀ (pending cur : List TransItem),
    ((buildBatchesAux bs pending cur).map (fun j => j.items.length)).sum
      = pending.length + cur.length
  | [], cur => by
    by_cases hc : cur = [] <;> simp [buildBatchesAux, hc]
  | it :: rest, cur => by
    simp only [buildBatchesAux]
    by_cases hsing : isSingletonBlock it.block
    · rw [if_pos hsing]
      by_cases hc : cur = [] <;>
        · simp [hc, buildBatchesAux_sum bs rest []]
          omega
    · rw [if_neg hsing]
      by_cases hfull : bs ≤ cur.length + 1
      · rw [if_pos hfull]
        simp [buildBatchesAux_sum bs rest []]
        omega
      · rw [if_neg hfull]
        rw [buildBatchesAux_sum bs rest (cur ++ [it])]
        simp
        omega

theorem buildBatches_sum (bs : ℕ) (items : List TransItem) :
    ((buildBatches bs items).map (fun j => j.items.length)).sum = items.length := by
  show ((buildBatchesAux bs items []).map (fun j => j.items.length)).sum = items.length
  rw [buildBatchesAux_sum]
  simp

theorem sumIncrements_replicate_true : ∀ jobs : List Job,
    sumIncrements jobs (List.replicate jobs.length true)
      = (jobs.map (fun j => j.items.length)).sum
  | [] => rfl
  | j :: js => by
    simp only [List.length_cons, List.replicate_succ, sumIncrements, if_pos rfl,
      List.map_cons, List.sum_cons, sumIncrements_replicate_true js]
    simp

theorem length_filter_and_le (p q : TransItem → Bool) :
    ∀ l : List TransItem,
    (l.filter (fun x => p x && q x)).length ≤ (l.filter p).length
  | [] => le_refl 0
  | x :: rest => by
    have IH := length_filter_and_le p q rest
    rw [List.filter_cons, List.filter_cons]
    cases hp : p x <;> cases hq : q x <;> simp [hp, hq] <;> omega

theorem length_filter_block (g : MarkdownBlock → Bool) :
    ∀ (blocks : List MarkdownBlock) (n : ℕ),
    (((List.enumFrom n blocks).map
        (fun p => ({ block := p.2, index := p.1 } : TransItem))).filter
      (fun it => g it.block)).length = (blocks.filter g).length
  | [], _ => rfl
  | b :: rest, n => by
    rw [List.enumFrom_cons, List.map_cons, List.filter_cons, List.filter_cons]
    cases hg : g b <;> simp [hg, length_filter_block g rest (n + 1)]

theorem blocksToTranslate_le (blocks : List MarkdownBlock)
    (cache : List (String × String)) :
    (blocksToTranslate blocks cache).length ≤ totalNonEmpty blocks := by
  have h1 := length_filter_and_le (fun it => decide (it.block.type ≠ BlockType.empty))
    (fun it => !cacheHas cache it.block.raw)
    (blocks.enum.map (fun p => ({ block := p.2, index := p.1 } : TransItem)))
  have h2 := length_filter_block (fun b => decide (b.type ≠ BlockType.empty)) blocks 0
  exact le_of_le_of_eq h1 h2

/-- C1 amended: the reported `current` sequence of a pass is always
non-decreasing, and when EVERY job's transformation call succeeds the final
reported value equals `total`; a failed job does not advance the counter, so
a pass with failures ends below `total`, as the counterexample shows. -/
theorem C1_progress_amended (text : String) (cache : List (String × String))
    (bs : ℕ) (outcomes : List Bool) :
    List.Chain' (· ≤ ·) (runTranslationReports text cache bs outcomes) ∧
    (outcomes = List.replicate
        (buildBatches bs (blocksToTranslate (parseMarkdownIntoBlocks text) cache)).length
        true →
      (runTranslationReports text cache bs outcomes).getLast?
        = some (totalNonEmpty (parseMarkdownIntoBlocks text))) := by
  have hst := blocksToTranslate_le (parseMarkdownIntoBlocks text) cache
  constructor
  · exact chain_reportSeq (totalNonEmpty (parseMarkdownIntoBlocks text)) _ _ (Nat.sub_le _ _)
  · intro ho
    show ((totalNonEmpty (parseMarkdownIntoBlocks text)
          - (blocksToTranslate (parseMarkdownIntoBlocks text) cache).length)
        :: reportSeq (totalNonEmpty (parseMarkdownIntoBlocks text))
          (totalNonEmpty (parseMarkdownIntoBlocks text)
            - (blocksToTranslate (parseMarkdownIntoBlocks text) cache).length)
          (sumIncrements
            (buildBatches bs (blocksToTranslate (parseMarkdownIntoBlocks text) cache))
            outcomes)).getLast?
      = some (totalNonEmpty (parseMarkdownIntoBlocks text))
    rw [ho, sumIncrements_replicate_true, buildBatches_sum,
      last_reportSeq _ _ _ (Nat.sub_le _ _)]
    congr 1
    omega

/-- Witness for C1 amended: the one-job pass over `"hi"` with a successful
call reports a non-decreasing sequence ending at the total 1. -/
theorem C1_progress_amended_witness :
    List.Chain' (· ≤ ·) (runTranslationReports "hi" [] 10 [true]) ∧
    (runTranslationReports "hi" [] 10 [true]).getLast? = some 1 := by
  have h := C1_progress_amended "hi" [] 10 [true]
  refine ⟨h.1, ?_⟩
  have h2 := h.2 (by decide)
  rw [h2]
  decide

/-- The control-flow environment of one `processBatch` call (Preview.tsx
lines 446-467): the abort flag sampled at entry (line 447), the abort flag at
the moment the awaited transformation resolves (which the code never
samples), and the call's outcome (`none` models a thrown error). -/
structure BatchEnv where
  abortedAtStart : Bool
  abortedAtResolve : Bool
  response : Option String
deriving DecidableEq

/-- The writes `processBatch` performs into `currentRenderedBlocks`
(document index, final block), in order: none when aborted at entry or when
the call throws (the `catch` only logs); otherwise one write per item —
regardless of the abort flag at resolve time, because the code does not
re-check the signal after its `await`. -/
def processBatchWrites (env : BatchEnv) (items : List TransItem) : List (ℕ × String) :=
  if env.abortedAtStart then []
  else
    match env.response with
    | none => []
    | some full =>
      items.enum.map
        (fun p => (p.2.index, batchFinalBlock (processBatchParts full) p.2.block p.1))

/-- Whether `processBatch` publishes a snapshot via `setDisplayedContent`
(Preview.tsx line 463): after a successful call, unconditionally. -/
def processBatchPublishes (env : BatchEnv) : Bool :=
  !env.abortedAtStart && env.response.isSome

/-- One streamed delta event of `processSingle`'s callback (Preview.tsx
lines 483-492): the delta text, the abort flag sampled on entry of the
callback, and whether the 100 ms throttle window was open at that moment. -/
structure DeltaEvent where
  text : String
  aborted : Bool
  throttleOpen : Bool
deriving DecidableEq

/-- The control-flow environment of one `processSingle` call (Preview.tsx
lines 469-504). -/
structure SingleEnv where
  abortedAtStart : Bool
  deltas : List DeltaEvent
  response : Option String
  abortedAtResolve : Bool
deriving DecidableEq

/-- The `prefix` of `processSingle` (Preview.tsx lines 474-479). -/
def singlePre (b : MarkdownBlock) : String :=
  if b.type = BlockType.code then "```" ++ b.lang.getD "" ++ "\n" else b.pfx.getD ""

/-- The `suffix` of `processSingle` (Preview.tsx lines 475-479). -/
def singleSuf (b : MarkdownBlock) : String :=
  if b.type = BlockType.code then "\n```" else ""

/-- The buffer writes made by the delta callback: an aborted callback returns
before accumulating; a non-aborted delta extends the accumulated stream and,
when the throttle window is open, writes the partial block. -/
def deltaWrites (pre suf : String) (index : ℕ) : List DeltaEvent → String → List (ℕ × String)
  | [], _ => []
  | d :: rest, acc =>
    if d.aborted then deltaWrites pre suf index rest acc
    else
      if d.throttleOpen then
        (index, pre ++ (acc ++ d.text) ++ suf)
          :: deltaWrites pre suf index rest (acc ++ d.text)
      else deltaWrites pre suf index rest (acc ++ d.text)

/-- All writes `processSingle` performs into `currentRenderedBlocks`: none
when aborted at entry; then the streamed partial writes; and, when the call
returns with the abort flag still clear at that point (line 495), the final
translated block.  A thrown call adds nothing after the deltas (the `catch`
only logs). -/
def processSingleWrites (env : SingleEnv) (it : TransItem) : List (ℕ × String) :=
  if env.abortedAtStart then []
  else
    let dw := deltaWrites (singlePre it.block) (singleSuf it.block) it.index env.deltas ""
    match env.response with
    | none => dw
    | some t =>
      if env.abortedAtResolve then dw
      else dw ++ [(it.index, singlePre it.block ++ t ++ singleSuf it.block)]

/-- The last value written to a given document index by a list of writes. -/
def lastWriteTo (writes : List (ℕ × String)) (i : ℕ) : Option String :=
  ((writes.filter (fun w => decide (w.1 = i))).map (fun w => w.2)).getLast?

/-- The content of the job's slot after a `processSingle` call ends: the last
write to its index, or the slot's pre-job content `block.raw` (how
`runTranslation` initialises `currentRenderedBlocks` for a non-cached block,
Preview.tsx lines 392-396). -/
def singleSlotResult (env : SingleEnv) (it : TransItem) : String :=
  (lastWriteTo (processSingleWrites env it) it.index).getD it.block.raw

/-- A concrete text block for the C2 counterexample. -/
def c2block : MarkdownBlock := { type := BlockType.text, content := "hi", raw := "hi" }

/-- C2 counterexample: a batch whose pass is cancelled while its
transformation call is in flight (`abortedAtResolve = true`) still writes its
result into the document buffer and still publishes a snapshot — processBatch
checks the cancellation flag only at job start, not before its writes. -/
theorem C2_cancellation_counterexample :
    processBatchWrites ⟨false, true, some "done"⟩ [⟨c2block, 0⟩] = [(0, "done")] ∧
    processBatchWrites ⟨false, true, some "done"⟩ [⟨c2block, 0⟩] ≠ [] ∧
    processBatchPublishes ⟨false, true, some "done"⟩ = true := by decide

theorem deltaWrites_all_aborted (pre suf : String) (index : ℕ) :
    ∀ (ds : List DeltaEvent) (acc : String), (∀ d ∈ ds, d.aborted = true) →
    deltaWrites pre suf index ds acc = []
  | [], _, _ => rfl
  | d :: rest, acc, h => by
    have hd : d.aborted = true := h d (by simp)
    simp [deltaWrites, hd,
      deltaWrites_all_aborted pre suf index rest acc (fun x hx => h x (by simp [hx]))]

/-- C2 amended: the cancellation flag is checked at batch entry and, for a
singleton, inside every delta callback and again before the final write — but
not after a batch's await: a batch aborted at entry writes and publishes
nothing; a batch whose pass is cancelled during its in-flight call behaves
exactly as an uncancelled one (its writes do not depend on the flag at
resolve time); a singleton cancelled by resolve time makes no final write;
and delta callbacks that see the flag set write nothing. -/
theorem C2_cancellation_amended (env : BatchEnv) (items : List TransItem)
    (senv : SingleEnv) (it : TransItem) :
    (env.abortedAtStart = true →
      processBatchWrites env items = [] ∧ processBatchPublishes env = false) ∧
    (processBatchWrites { env with abortedAtResolve := true } items
      = processBatchWrites { env with abortedAtResolve := false } items) ∧
    (senv.abortedAtResolve = true → processSingleWrites senv it =
      (if senv.abortedAtStart then []
       else deltaWrites (singlePre it.block) (singleSuf it.block) it.index senv.deltas "")) ∧
    ((∀ d ∈ senv.deltas, d.aborted = true) →
      deltaWrites (singlePre it.block) (singleSuf it.block) it.index senv.deltas "" = []) := by
  refine ⟨?_, ?_, ?_, ?_⟩
  · intro h
    constructor
    · simp [processBatchWrites, h]
    · simp [processBatchPublishes, h]
  · rfl
  · intro h
    cases hst : senv.abortedAtStart
    · simp only [processSingleWrites, hst, Bool.false_eq_true, if_neg (by simp : ¬False),
        if_false]
      rcases hresp : senv.response with _ | t
      · simp
      · simp [h]
    · simp [processSingleWrites, hst]
  · intro h
    exact deltaWrites_all_aborted _ _ _ senv.deltas "" h

/-- Witness for C2 amended: a batch aborted at entry writes nothing, and a
delta callback that observes the cancelled flag writes nothing. -/
theorem C2_cancellation_amended_witness :
    (processBatchWrites ⟨true, false, some "x"⟩ [⟨c2block, 0⟩] = [] ∧
      processBatchPublishes ⟨true, false, some "x"⟩ = false) ∧
    deltaWrites (singlePre c2block) (singleSuf c2block) 0
      [⟨"a", true, true⟩] "" = [] := by
  have h := C2_cancellation_amended ⟨true, false, some "x"⟩ [⟨c2block, 0⟩]
    ⟨false, [⟨"a", true, true⟩], some "t", true⟩ ⟨c2block, 0⟩
  exact ⟨h.1 rfl, h.2.2.2 (by decide)⟩

/-- A concrete text block for the C8 counterexample. -/
def c8block : MarkdownBlock := { type := BlockType.text, content := "hello", raw := "hello" }

/-- C8 counterexample: a singleton whose call streams one delta (published,
throttle open) and then throws leaves its slot at the streamed PARTIAL
content "par", not at its pre-job original content "hello" — the catch block
does not revert partial streamed writes. -/
theorem C8_failure_counterexample :
    singleSlotResult ⟨false, [⟨"par", false, true⟩], none, false⟩ ⟨c8block, 0⟩ = "par" ∧
    singleSlotResult ⟨false, [⟨"par", false, true⟩], none, false⟩ ⟨c8block, 0⟩
      ≠ c8block.raw := by decide

/-- C8 amended: a batch whose call throws performs no writes at all, so its
items stay at pre-job content; a singleton whose call throws performs no
writes beyond its already-published streamed deltas, so its slot holds the
last published partial when one was published — and its original pre-job
content when no delta was published (for instance when every delta callback
saw the abort flag). -/
theorem C8_failure_amended (benv : BatchEnv) (items : List TransItem)
    (senv : SingleEnv) (it : TransItem)
    (hb : benv.response = none) (hs : senv.response = none) :
    processBatchWrites benv items = [] ∧
    singleSlotResult senv it =
      (lastWriteTo (if senv.abortedAtStart then []
        else deltaWrites (singlePre it.block) (singleSuf it.block) it.index senv.deltas "")
        it.index).getD it.block.raw ∧
    ((∀ d ∈ senv.deltas, d.aborted = true) → singleSlotResult senv it = it.block.raw) := by
  have hw : processSingleWrites senv it =
      (if senv.abortedAtStart then []
       else deltaWrites (singlePre it.block) (singleSuf it.block) it.index senv.deltas "") := by
    cases hst : senv.abortedAtStart <;> simp [processSingleWrites, hst, hs]
  refine ⟨?_, ?_, ?_⟩
  · cases hst : benv.abortedAtStart <;> simp [processBatchWrites, hst, hb]
  · rw [singleSlotResult, hw]
  · intro hall
    have hdw := deltaWrites_all_aborted (singlePre it.block) (singleSuf it.block)
      it.index senv.deltas "" hall
    rw [singleSlotResult, hw, hdw]
    cases hst : senv.abortedAtStart <;> simp [lastWriteTo]

/-- Witness for C8 amended: a failed batch writes nothing, and a failed
singleton with no published delta keeps its original content. -/
theorem C8_failure_amended_witness :
    processBatchWrites ⟨false, false, none⟩ [⟨c8block, 0⟩] = [] ∧
    singleSlotResult ⟨false, [], none, false⟩ ⟨c8block, 0⟩ = c8block.raw := by
  have h := C8_failure_amended ⟨false, false, none⟩ [⟨c8block, 0⟩]
    ⟨false, [], none, false⟩ ⟨c8block, 0⟩ rfl rfl
  exact ⟨h.1, h.2.2 (by simp)⟩

/-- The abstract state of `TaskQueue` (Preview.tsx lines 324-349): tasks are
numbered in the order `add` receives them (`nextId`); `queue` holds the ids
of pending tasks in arrival order; `active` counts running tasks; `started`
records the ids in the order their `task()` call was made. -/
structure QueueState where
  nextId : ℕ
  queue : List ℕ
  active : ℕ
  started : List ℕ
deriving DecidableEq

/-- The external events driving the queue: `add` enqueues the next task and
calls `next()`; `finish` is one running task's `finally` — it decrements
`active` and calls `next()`. -/
inductive QEvent
  | add | finish
deriving DecidableEq

/-- `next()` (Preview.tsx lines 338-348): when the queue is non-empty and a
slot is free (`active < concurrency`), shift the head task, increment
`active` and start the task. -/
def tryNext (C : ℕ) (s : QueueState) : QueueState :=
  match s.queue with
  | [] => s
  | t :: rest =>
    if C ≤ s.active then s
    else { s with queue := rest, active := s.active + 1, started := s.started ++ [t] }

/-- One driver event: `add` pushes a task then runs `next()`; `finish`
decrements `active` then runs `next()` (a `finish` with nothing active cannot
occur in the real queue and is modelled as a no-op). -/
def qstep (C : ℕ) (s : QueueState) : QEvent → QueueState
  | QEvent.add =>
    tryNext C { s with queue := s.queue ++ [s.nextId], nextId := s.nextId + 1 }
  | QEvent.finish =>
    if s.active = 0 then s else tryNext C { s with active := s.active - 1 }

/-- The initial `TaskQueue` state. -/
def qinit : QueueState := ⟨0, [], 0, []⟩

/-- Run the queue from the initial state over a list of events. -/
def qrun (C : ℕ) (events : List QEvent) : QueueState :=
  events.foldl (qstep C) qinit

/-- The inductive invariant of the queue: no more than `C` tasks are active,
and the started ids followed by the still-queued ids are exactly
`0, 1, ..., nextId - 1` in order. -/
def QInv (C : ℕ) (s : QueueState) : Prop :=
  s.active ≤ C ∧ s.started ++ s.queue = List.range s.nextId

theorem tryNext_inv (C : ℕ) (s : QueueState) (h : QInv C s) : QInv C (tryNext C s) := by
  obtain ⟨n, q, a, st⟩ := s
  obtain ⟨h1, h2⟩ := h
  have h1a : a ≤ C := h1
  rcases q with _ | ⟨t, rest⟩
  · exact ⟨h1, h2⟩
  · show QInv C (if C ≤ a then ⟨n, t :: rest, a, st⟩ else ⟨n, rest, a + 1, st ++ [t]⟩)
    by_cases ha : C ≤ a
    · rw [if_pos ha]
      exact ⟨h1, h2⟩
    · rw [if_neg ha]
      refine ⟨by clear h1; show a + 1 ≤ C; omega, ?_⟩
      show st ++ [t] ++ rest = List.range n
      simp only [List.append_assoc, List.singleton_append]
      simpa using h2

theorem qstep_inv (C : ℕ) (s : QueueState) (e : QEvent) (h : QInv C s) :
    QInv C (qstep C s e) := by
  obtain ⟨n, q, a, st⟩ := s
  obtain ⟨h1, h2⟩ := h
  have h1a : a ≤ C := h1
  cases e
  · refine tryNext_inv C _ ⟨h1, ?_⟩
    show st ++ (q ++ [n]) = List.range (n + 1)
    rw [← List.append_assoc, h2, List.range_succ]
  · show QInv C (if a = 0 then ⟨n, q, a, st⟩ else tryNext C ⟨n, q, a - 1, st⟩)
    by_cases ha : a = 0
    · rw [if_pos ha]
      exact ⟨h1, h2⟩
    · rw [if_neg ha]
      exact tryNext_inv C _ ⟨by clear h1; show a - 1 ≤ C; omega, h2⟩

theorem qrun_inv (C : ℕ) (events : List QEvent) : QInv C (qrun C events) := by
  suffices h : ∀ (s : QueueState), QInv C s → QInv C (events.foldl (qstep C) s) from
    h qinit ⟨Nat.zero_le C, rfl⟩
  induction events with
  | nil => exact fun s hs => hs
  | cons e rest ih => exact fun s hs => ih (qstep C s e) (qstep_inv C s e hs)

/-- A list that is a prefix of a `range` is itself a `range`. -/
theorem prefix_range (st q : List ℕ) (n : ℕ) (h : st ++ q = List.range n) :
    st = List.range st.length := by
  have hlen : st.length ≤ n := by
    have h3 := congrArg List.length h
    rw [List.length_append, List.length_range] at h3
    omega
  have h1 : st = (List.range n).take st.length := by
    rw [← h, List.take_left]
  conv_lhs => rw [h1]
  rw [List.take_range]
  congr 1
  omega

/-- C10: at every point of a run, the number of active tasks never exceeds
the concurrency bound `C`; the started tasks are exactly the first ids in
their enqueue order (FIFO dispatch); and `next()` starts a task only when the
active count is strictly below `C`. -/
theorem C10_queue_invariant (C : ℕ) (events : List QEvent) (s : QueueState) :
    (qrun C events).active ≤ C ∧
    (qrun C events).started = List.range (qrun C events).started.length ∧
    ((tryNext C s).started.length > s.started.length → s.active < C) := by
  obtain ⟨h1, h2⟩ := qrun_inv C events
  refine ⟨h1, prefix_range _ _ _ h2, ?_⟩
  intro hgt
  obtain ⟨n, q, a, st⟩ := s
  rcases q with _ | ⟨t, rest⟩
  · rw [show tryNext C ⟨n, [], a, st⟩ = ⟨n, [], a, st⟩ from rfl] at hgt
    exact absurd hgt (lt_irrefl _)
  · show a < C
    by_cases ha : C ≤ a
    · rw [show tryNext C ⟨n, t :: rest, a, st⟩ = ⟨n, t :: rest, a, st⟩ from by
        show (if C ≤ a then _ else _) = _
        rw [if_pos ha]] at hgt
      exact absurd hgt (lt_irrefl _)
    · omega

/-- Witness for C10: a run of four adds and one finish under concurrency 3,
plus one concrete `next()` transition that does start a task. -/
theorem C10_queue_invariant_witness :
    (qrun 3 [QEvent.add, QEvent.add, QEvent.add, QEvent.add, QEvent.finish]).active ≤ 3 ∧
    (qrun 3 [QEvent.add, QEvent.add, QEvent.add, QEvent.add, QEvent.finish]).started
      = List.range (qrun 3 [QEvent.add, QEvent.add, QEvent.add, QEvent.add,
          QEvent.finish]).started.length ∧
    (⟨5, [7], 1, [9]⟩ : QueueState).active < 3 := by
  have h := C10_queue_invariant 3
    [QEvent.add, QEvent.add, QEvent.add, QEvent.add, QEvent.finish]
    ⟨5, [7], 1, [9]⟩
  exact ⟨h.1, h.2.1, h.2.2 (by decide)⟩
end MT
